import Mathlib

/-!
Shallow embedding of the FixedBitmaps crate.

The core of the repository is the family of oversized, multi-word bitmaps
(src/oversized/bitmap_1024.rs, bitmap_4096.rs, bitmap_kb.rs, all textually
identical up to the capacity constant).  A multi-word bitmap is an array of
ELEMENT_COUNT machine words of ELEMENT_SIZE bits each, most-significant word
at array index 0.  We model the word array as a List Nat whose entries are
below 2 ^ W, with the word width W (ELEMENT_SIZE in the source, that is,
the bit width of usize, 64 on the usual target) an explicit parameter, and
the element count given by the length of the list.  The capacity
MAP_LENGTH equals ELEMENT_COUNT * ELEMENT_SIZE for every oversized bitmap
in the crate, so the bound check index >= MAP_LENGTH is modelled as
index >= ws.length * W.

The single-word Bitmap64 (src/primitives/bitmap64.rs) is modelled as a
plain Nat below 2 ^ 64 for its mask-construction and complement
operations.
-/

namespace FixedBitmaps

/-- usize::MAX for a W-bit machine word. -/
def wordMax (W : Nat) : Nat := 2 ^ W - 1

/-- Every word of the array is in range for a W-bit machine word. -/
def goodWords (W : Nat) (ws : List Nat) : Prop := ∀ w ∈ ws, w < 2 ^ W

instance (W : Nat) (ws : List Nat) : Decidable (goodWords W ws) :=
  List.decidableBAll _ ws

namespace Oversized

/-- Bitmap1024::get_element_location (identical in every oversized bitmap):
ELEMENT_COUNT - 1 - bit_index / ELEMENT_SIZE.  Here n is the element count
and W the word width. -/
def get_element_location (W n bit_index : Nat) : Nat :=
  n - 1 - bit_index / W

/-- The error message built by Bitmap1024::get for an out-of-range index. -/
def getErrMsg (range index : Nat) : String :=
  "Tried to get bit that is out of range of the bitmap (range: "
    ++ toString range ++ ", index: " ++ toString index ++ ")"

/-- The error message built by Bitmap1024::set for an out-of-range index. -/
def setErrMsg (range index : Nat) : String :=
  "Tried to set bit that is out of range of the bitmap (range: "
    ++ toString range ++ ", index: " ++ toString index ++ ")"

/-- Bitmap1024::get: bound check against MAP_LENGTH, then read the bit
1 << (index % ELEMENT_SIZE) of the word at get_element_location. -/
def get (W : Nat) (ws : List Nat) (index : Nat) : Except String Bool :=
  if index ≥ ws.length * W then
    .error (getErrMsg (ws.length * W) index)
  else
    .ok (decide
      (ws.getD (get_element_location W ws.length index) 0 &&& (1 <<< (index % W)) > 0))

/-- Bitmap1024::set.  The Rust method mutates self in place and returns
Result; we return the final word array together with the Result.
On the value=true branch it ORs the mask 1 << (index % ELEMENT_SIZE) into
the target word; on the value=false branch it ANDs the target word with
usize::MAX - (1 << (index % ELEMENT_SIZE)). -/
def set (W : Nat) (ws : List Nat) (index : Nat) (value : Bool) :
    List Nat × Except String Unit :=
  if index ≥ ws.length * W then
    (ws, .error (setErrMsg (ws.length * W) index))
  else
    let element_location := get_element_location W ws.length index
    if value then
      (ws.set element_location
        (ws.getD element_location 0 ||| (1 <<< (index % W))), .ok ())
    else
      (ws.set element_location
        (ws.getD element_location 0 &&& (wordMax W - (1 <<< (index % W)))), .ok ())

/-- Bitmap1024::from_set: None when index >= MAP_LENGTH, otherwise the
default (all-zero) bitmap with the one bit set. -/
def from_set (W n index : Nat) : Option (List Nat) :=
  if index ≥ n * W then none
  else some (set W (List.replicate n 0) index true).1

/-- Bitmap1024::new: all words usize::MAX when value is true, all zero
otherwise. -/
def new (W n : Nat) (value : Bool) : List Nat :=
  if value then List.replicate n (wordMax W) else List.replicate n 0

/-- impl BitAnd for Bitmap1024: word-index-aligned AND of the two arrays. -/
def bitand (lhs rhs : List Nat) : List Nat :=
  List.zipWith (fun a b => a &&& b) lhs rhs

/-- impl BitAndAssign for Bitmap1024: the separately written in-place loop. -/
def bitand_assign (lhs rhs : List Nat) : List Nat :=
  List.zipWith (fun a b => a &&& b) lhs rhs

/-- impl BitOr for Bitmap1024. -/
def bitor (lhs rhs : List Nat) : List Nat :=
  List.zipWith (fun a b => a ||| b) lhs rhs

/-- impl BitOrAssign for Bitmap1024. -/
def bitor_assign (lhs rhs : List Nat) : List Nat :=
  List.zipWith (fun a b => a ||| b) lhs rhs

/-- impl BitXor for Bitmap1024. -/
def bitxor (lhs rhs : List Nat) : List Nat :=
  List.zipWith (fun a b => a ^^^ b) lhs rhs

/-- impl BitXorAssign for Bitmap1024. -/
def bitxor_assign (lhs rhs : List Nat) : List Nat :=
  List.zipWith (fun a b => a ^^^ b) lhs rhs

/-- Modelled from the spec: the crate defines NOT only for the single-word
bitmaps (impl Not is absent from src/oversized); the spec extends it
element-wise to the word sequence, each word complemented exactly as
Bitmap64 does (word XOR usize::MAX), padding bits included. -/
def notWords (W : Nat) (ws : List Nat) : List Nat :=
  ws.map (fun w => w ^^^ wordMax W)

/-- The ripple-carry loop of impl Add for Bitmap1024:
walks the array from the last index toward index 0 carrying rhs; a word
that would overflow wraps (wrapping_add) and passes carry 1; otherwise the
word absorbs the carry and the loop breaks.  Returns the final array, the
carry left after the loop, and whether the loop exited via break. -/
def addLoop (W : Nat) : List Nat → Nat → List Nat × Nat × Bool
  | [], carry => ([], carry, false)
  | w :: rest, carry =>
    match addLoop W rest carry with
    | (rest', c, broke) =>
      if broke then (w :: rest', c, true)
      else if wordMax W - c < w then (((w + c) % 2 ^ W) :: rest', 1, false)
      else ((w + c) :: rest', 0, true)

/-- impl Add for Bitmap1024.  The second component is the number of
overflow-warning diagnostics printed (the single eprintln fires exactly
when a nonzero carry is left after the loop). -/
def add (W : Nat) (ws : List Nat) (rhs : Nat) : List Nat × Nat :=
  match addLoop W ws rhs with
  | (ws', carry, _) => (ws', if carry > 0 then 1 else 0)

/-- The ripple-carry loop of impl AddAssign for Bitmap1024, written in the
source as a second, textually separate copy of the Add loop. -/
def addAssignLoop (W : Nat) : List Nat → Nat → List Nat × Nat × Bool
  | [], carry => ([], carry, false)
  | w :: rest, carry =>
    match addAssignLoop W rest carry with
    | (rest', c, broke) =>
      if broke then (w :: rest', c, true)
      else if wordMax W - c < w then (((w + c) % 2 ^ W) :: rest', 1, false)
      else ((w + c) :: rest', 0, true)

/-- impl AddAssign for Bitmap1024 (mutates in place; we return the final
array and the number of overflow-warning diagnostics printed). -/
def add_assign (W : Nat) (ws : List Nat) (rhs : Nat) : List Nat × Nat :=
  match addAssignLoop W ws rhs with
  | (ws', carry, _) => (ws', if carry > 0 then 1 else 0)

/-- The numeric value of a word array read most-significant word first
(the word at the highest array index is least significant). -/
def toNat (W : Nat) : List Nat → Nat
  | [] => 0
  | w :: rest => 2 ^ (W * rest.length) * w + toNat W rest

/-- The lexicographic strict order on word arrays from array index 0
onward: the order derived for Bitmap1024 by #[derive(PartialOrd, Ord)]
on [usize; ELEMENT_COUNT]. -/
def lexLt : List Nat → List Nat → Bool
  | _, [] => false
  | [], _ :: _ => true
  | a :: as, b :: bs => decide (a < b) || (decide (a = b) && lexLt as bs)

end Oversized

namespace Bitmap64

/-- Bitmap64::MAP_LENGTH = mem::size_of::<u64>() * 8. -/
def MAP_LENGTH : Nat := 64

/-- u64::MAX. -/
def u64Max : Nat := 2 ^ 64 - 1

/-- impl Not for Bitmap64: self.0 ^ u64::MAX. -/
def not (x : Nat) : Nat := x ^^^ u64Max

/-- Bitmap64::new: u64::MAX when value is true, 0 otherwise. -/
def new (value : Bool) : Nat := if value then u64Max else 0

/-- The value=true branch of Bitmap64::create_bit_mask.  Left shifts of
u64 drop the bits shifted past position 63, hence the reduction mod 2^64;
begin is below 64 on every branch that shifts. -/
def create_bit_mask_true (begin ending : Nat) : Nat :=
  if begin ≥ MAP_LENGTH ∨ ending < 1 then 0
  else if ending ≥ MAP_LENGTH then (u64Max <<< begin) % 2 ^ 64
  else ((u64Max <<< begin) % 2 ^ 64) &&& (u64Max >>> (MAP_LENGTH - ending))

/-- Bitmap64::create_bit_mask: the value=false branch is the complement
(via impl Not) of the value=true branch with the same bounds. -/
def create_bit_mask (begin ending : Nat) (value : Bool) : Nat :=
  if value then create_bit_mask_true begin ending
  else not (create_bit_mask_true begin ending)

end Bitmap64

/-! ## Helper lemmas -/

theorem decide_and_two_pow_pos (w k : Nat) :
    decide (w &&& 2 ^ k > 0) = w.testBit k := by
  rw [Nat.and_two_pow]
  cases h : w.testBit k <;> simp [h, Nat.two_pow_pos]

theorem get_in_range {W : Nat} {ws : List Nat} {i : Nat} (h : i < ws.length * W) :
    Oversized.get W ws i =
      .ok ((ws.getD (Oversized.get_element_location W ws.length i) 0).testBit (i % W)) := by
  unfold Oversized.get
  rw [if_neg (by omega), Nat.one_shiftLeft, decide_and_two_pow_pos]

theorem set_in_range {W : Nat} {ws : List Nat} {i : Nat} (v : Bool) (h : i < ws.length * W) :
    Oversized.set W ws i v =
      (ws.set (Oversized.get_element_location W ws.length i)
        (if v then
          ws.getD (Oversized.get_element_location W ws.length i) 0 ||| 2 ^ (i % W)
         else
          ws.getD (Oversized.get_element_location W ws.length i) 0 &&&
            (wordMax W - 2 ^ (i % W))),
       .ok ()) := by
  unfold Oversized.set
  rw [if_neg (by omega)]
  cases v <;> simp [Nat.one_shiftLeft]

theorem div_lt_of_lt_mul_len {W L i : Nat} (hW : 0 < W) (h : i < L * W) : i / W < L :=
  (Nat.div_lt_iff_lt_mul hW).mpr h

theorem getD_zipWith (f : Nat → Nat → Nat) :
    ∀ (as bs : List Nat) (i : Nat), as.length = bs.length → i < as.length →
      (List.zipWith f as bs).getD i 0 = f (as.getD i 0) (bs.getD i 0) := by
  intro as
  induction as with
  | nil => intro bs i _ hi; simp at hi
  | cons a as ih =>
    intro bs i h hi
    cases bs with
    | nil => simp at h
    | cons b bs =>
      cases i with
      | zero => simp
      | succ n =>
        simp only [List.zipWith_cons_cons, List.getD_cons_succ]
        exact ih bs n (by simpa using h) (by simpa using hi)

theorem getD_map_word (f : Nat → Nat) :
    ∀ (ws : List Nat) (i : Nat), i < ws.length →
      (ws.map f).getD i 0 = f (ws.getD i 0) := by
  intro ws
  induction ws with
  | nil => intro i hi; simp at hi
  | cons w ws ih =>
    intro i hi
    cases i with
    | zero => simp
    | succ n =>
      simp only [List.map_cons, List.getD_cons_succ]
      exact ih n (by simpa using hi)

/-! ## C5: out-of-range accesses fail recoverably and leave the state alone -/

/-- C5: for every bitmap and every index at or past the capacity, get,
set and from_set fail recoverably (an error value, not a panic), and a
failed set returns the word array unchanged. -/
theorem claim5_out_of_range :
    (∀ W ws i v, ws.length * W ≤ i →
      (Oversized.set W ws i v).1 = ws ∧
      (Oversized.set W ws i v).2 = .error (Oversized.setErrMsg (ws.length * W) i)) ∧
    (∀ W ws i, ws.length * W ≤ i →
      Oversized.get W ws i = .error (Oversized.getErrMsg (ws.length * W) i)) ∧
    (∀ W n i, n * W ≤ i → Oversized.from_set W n i = none) := by
  refine ⟨?_, ?_, ?_⟩
  · intro W ws i v h
    unfold Oversized.set
    rw [if_pos h]
    exact ⟨rfl, rfl⟩
  · intro W ws i h
    unfold Oversized.get
    rw [if_pos h]
  · intro W n i h
    unfold Oversized.from_set
    rw [if_pos h]

theorem claim5_witness :
    [1, 2].length * 64 ≤ 128 ∧ (2 : Nat) * 64 ≤ 128 ∧
    (Oversized.set 64 [1, 2] 128 true).1 = [1, 2] ∧
    Oversized.get 64 [1, 2] 128 =
      .error (Oversized.getErrMsg ([1, 2].length * 64) 128) ∧
    Oversized.from_set 64 2 128 = none :=
  ⟨by decide, by decide,
   (claim5_out_of_range.1 64 [1, 2] 128 true (by decide)).1,
   claim5_out_of_range.2.1 64 [1, 2] 128 (by decide),
   claim5_out_of_range.2.2 64 2 128 (by decide)⟩

/-! ## C10: the Add and AddAssign ripple-carry loops agree -/

theorem addLoop_eq_addAssignLoop (W : Nat) (ws : List Nat) (c : Nat) :
    Oversized.addLoop W ws c = Oversized.addAssignLoop W ws c := by
  induction ws generalizing c with
  | nil => rfl
  | cons w rest ih => simp [Oversized.addLoop, Oversized.addAssignLoop, ih]

/-- C10: the value-returning Add operator and the in-place AddAssign
operator compute the same function on every multi-word bitmap and
scalar. -/
theorem claim10_add_addAssign_agree :
    ∀ W ws s, Oversized.add W ws s = Oversized.add_assign W ws s := by
  intro W ws s
  unfold Oversized.add Oversized.add_assign
  rw [addLoop_eq_addAssignLoop]

/-! ## C4: boolean operations are element-wise -/

/-- C4: AND, OR, XOR and their in-place assign forms are element-wise and
word-index-aligned across the word sequence; NOT complements every word
(the single-word Bitmap64 complement, and its element-wise extension to
the word sequence), padding bits included. -/
theorem claim4_boolean_ops_elementwise :
    (∀ as bs : List Nat, as.length = bs.length →
      (Oversized.bitand as bs).length = as.length ∧
      ∀ i, i < as.length →
        (Oversized.bitand as bs).getD i 0 = as.getD i 0 &&& bs.getD i 0) ∧
    (∀ as bs : List Nat, as.length = bs.length →
      (Oversized.bitor as bs).length = as.length ∧
      ∀ i, i < as.length →
        (Oversized.bitor as bs).getD i 0 = as.getD i 0 ||| bs.getD i 0) ∧
    (∀ as bs : List Nat, as.length = bs.length →
      (Oversized.bitxor as bs).length = as.length ∧
      ∀ i, i < as.length →
        (Oversized.bitxor as bs).getD i 0 = as.getD i 0 ^^^ bs.getD i 0) ∧
    (∀ as bs : List Nat, Oversized.bitand_assign as bs = Oversized.bitand as bs) ∧
    (∀ as bs : List Nat, Oversized.bitor_assign as bs = Oversized.bitor as bs) ∧
    (∀ as bs : List Nat, Oversized.bitxor_assign as bs = Oversized.bitxor as bs) ∧
    (∀ W ws, (Oversized.notWords W ws).length = ws.length ∧
      ∀ i, i < ws.length →
        (Oversized.notWords W ws).getD i 0 = ws.getD i 0 ^^^ wordMax W) ∧
    (∀ x j, j < 64 → (Bitmap64.not x).testBit j = !(x.testBit j)) := by
  refine ⟨?_, ?_, ?_, fun _ _ => rfl, fun _ _ => rfl, fun _ _ => rfl, ?_, ?_⟩
  · intro as bs h
    exact ⟨by simp [Oversized.bitand, h], fun i hi => getD_zipWith _ as bs i h hi⟩
  · intro as bs h
    exact ⟨by simp [Oversized.bitor, h], fun i hi => getD_zipWith _ as bs i h hi⟩
  · intro as bs h
    exact ⟨by simp [Oversized.bitxor, h], fun i hi => getD_zipWith _ as bs i h hi⟩
  · intro W ws
    exact ⟨by simp [Oversized.notWords], fun i hi => getD_map_word _ ws i hi⟩
  · intro x j hj
    have hnot : Bitmap64.not x = x ^^^ (2 ^ 64 - 1) := rfl
    rw [hnot, Nat.testBit_xor, Nat.testBit_two_pow_sub_one]
    simp [hj]

theorem claim4_witness :
    ([1, 2] : List Nat).length = ([3, 4] : List Nat).length ∧
    (Oversized.bitand [1, 2] [3, 4]).getD 0 0 =
      ([1, 2] : List Nat).getD 0 0 &&& ([3, 4] : List Nat).getD 0 0 ∧
    (5 : Nat) < 64 ∧
    (Bitmap64.not 0).testBit 5 = !((0 : Nat).testBit 5) :=
  ⟨rfl,
   (claim4_boolean_ops_elementwise.1 [1, 2] [3, 4] rfl).2 0 (by decide),
   by decide,
   claim4_boolean_ops_elementwise.2.2.2.2.2.2.2 0 5 (by decide)⟩

/-! ## C3: adding 1 to the full bitmap wraps to zero with one warning -/

theorem addLoop_full {W : Nat} (hW : 0 < W) :
    ∀ n, Oversized.addLoop W (List.replicate n (wordMax W)) 1 =
      (List.replicate n 0, 1, false) := by
  have h2 : 2 ≤ 2 ^ W := Nat.one_lt_two_pow (by omega)
  intro n
  induction n with
  | zero => rfl
  | succ n ih =>
    rw [List.replicate_succ, List.replicate_succ]
    unfold Oversized.addLoop
    rw [ih]
    have hcond : wordMax W - 1 < wordMax W := by unfold wordMax; omega
    simp only [hcond, if_true, if_false, Bool.false_eq_true]
    have hwrap : (wordMax W + 1) % 2 ^ W = 0 := by
      have : wordMax W + 1 = 2 ^ W := by unfold wordMax; omega
      rw [this, Nat.mod_self]
    rw [hwrap]

/-- C3: adding the scalar 1 to the all-ones bitmap new(true) yields the
all-zero bitmap new(false); the leftover carry is reported by exactly one
warning diagnostic and the wrapped value is returned, not a panic. -/
theorem claim3_overflow_boundary :
    ∀ W n, 0 < W →
      Oversized.add W (Oversized.new W n true) 1 = (Oversized.new W n false, 1) := by
  intro W n hW
  unfold Oversized.add Oversized.new
  simp only [if_true]
  rw [addLoop_full hW n]
  simp

theorem claim3_witness :
    0 < 64 ∧
    Oversized.add 64 (Oversized.new 64 16 true) 1 = (Oversized.new 64 16 false, 1) :=
  ⟨by decide, claim3_overflow_boundary 64 16 (by decide)⟩

/-! ## C7: create_bit_mask edge-case policy -/

/-- C7: create_bit_mask returns the all-zero bitmap on the value=true
branch when begin is at or past the capacity or end is below 1; when end
is at or past the capacity the upper bound clamps to the capacity (the
mask has exactly the bits in the interval from begin up to the capacity);
and the value=false branch is always the bitwise complement of the
value=true result for the same bounds. -/
theorem claim7_mask_edge_policy :
    (∀ b e, Bitmap64.MAP_LENGTH ≤ b ∨ e < 1 →
      Bitmap64.create_bit_mask b e true = 0) ∧
    (∀ b e j, b < Bitmap64.MAP_LENGTH → Bitmap64.MAP_LENGTH ≤ e →
      (Bitmap64.create_bit_mask b e true).testBit j =
        (decide (b ≤ j) && decide (j < Bitmap64.MAP_LENGTH))) ∧
    (∀ b e, Bitmap64.create_bit_mask b e false =
      Bitmap64.not (Bitmap64.create_bit_mask b e true)) := by
  refine ⟨?_, ?_, fun _ _ => rfl⟩
  · intro b e h
    have h0 : Bitmap64.create_bit_mask b e true = Bitmap64.create_bit_mask_true b e := rfl
    rw [h0]
    unfold Bitmap64.create_bit_mask_true
    rw [if_pos h]
  · intro b e j hb he
    have h0 : Bitmap64.create_bit_mask b e true = Bitmap64.create_bit_mask_true b e := rfl
    rw [h0]
    unfold Bitmap64.create_bit_mask_true
    simp only [Bitmap64.MAP_LENGTH, Bitmap64.u64Max] at *
    rw [if_neg (by omega), if_pos (by omega)]
    rw [Nat.testBit_mod_two_pow, Nat.testBit_shiftLeft, Nat.testBit_two_pow_sub_one]
    by_cases h1 : b ≤ j <;> by_cases h2 : j < 64
    all_goals simp [h1, h2]
    all_goals omega

theorem claim7_witness :
    (Bitmap64.MAP_LENGTH ≤ 64 ∨ (5 : Nat) < 1) ∧
    Bitmap64.create_bit_mask 64 5 true = 0 ∧
    (3 : Nat) < Bitmap64.MAP_LENGTH ∧ Bitmap64.MAP_LENGTH ≤ 100 ∧
    (Bitmap64.create_bit_mask 3 100 true).testBit 10 =
      (decide (3 ≤ 10) && decide (10 < Bitmap64.MAP_LENGTH)) ∧
    Bitmap64.create_bit_mask 3 7 false =
      Bitmap64.not (Bitmap64.create_bit_mask 3 7 true) :=
  ⟨by decide,
   claim7_mask_edge_policy.1 64 5 (by decide),
   by decide, by decide,
   claim7_mask_edge_policy.2.1 3 100 10 (by decide) (by decide),
   claim7_mask_edge_policy.2.2 3 7⟩

/-! ## C8: mask round-trip -/

theorem mask_true_lt (b e : Nat) : Bitmap64.create_bit_mask_true b e < 2 ^ 64 := by
  unfold Bitmap64.create_bit_mask_true
  split
  · exact Nat.two_pow_pos 64
  · split
    · exact Nat.mod_lt _ (Nat.two_pow_pos 64)
    · exact Nat.lt_of_le_of_lt Nat.and_le_left (Nat.mod_lt _ (Nat.two_pow_pos 64))

theorem or_compl_u64 {x : Nat} (hx : x < 2 ^ 64) :
    x ||| (x ^^^ (2 ^ 64 - 1)) = 2 ^ 64 - 1 := by
  apply Nat.eq_of_testBit_eq
  intro j
  rw [Nat.testBit_or, Nat.testBit_xor, Nat.testBit_two_pow_sub_one]
  by_cases hj : j < 64
  · simp only [hj, decide_True]
    cases x.testBit j <;> simp
  · have hxj : x.testBit j = false :=
      Nat.testBit_lt_two_pow
        (Nat.lt_of_lt_of_le hx (Nat.pow_le_pow_right (by omega) (by omega)))
    simp [hj, hxj]

theorem and_compl_u64 {x : Nat} (hx : x < 2 ^ 64) :
    x &&& (x ^^^ (2 ^ 64 - 1)) = 0 := by
  apply Nat.eq_of_testBit_eq
  intro j
  rw [Nat.testBit_and, Nat.testBit_xor, Nat.testBit_two_pow_sub_one, Nat.zero_testBit]
  by_cases hj : j < 64
  · simp only [hj, decide_True]
    cases x.testBit j <;> simp
  · have hxj : x.testBit j = false :=
      Nat.testBit_lt_two_pow
        (Nat.lt_of_lt_of_le hx (Nat.pow_le_pow_right (by omega) (by omega)))
    simp [hj, hxj]

/-- C8: for valid bounds, the value=true and value=false masks OR to the
all-ones bitmap new(true) and AND to the all-zero bitmap. -/
theorem claim8_mask_round_trip :
    ∀ b e, b ≤ e → e ≤ Bitmap64.MAP_LENGTH →
      Bitmap64.create_bit_mask b e true ||| Bitmap64.create_bit_mask b e false =
        Bitmap64.new true ∧
      Bitmap64.create_bit_mask b e true &&& Bitmap64.create_bit_mask b e false =
        Bitmap64.new false := by
  intro b e _ _
  have hx := mask_true_lt b e
  have h1 : Bitmap64.create_bit_mask b e true = Bitmap64.create_bit_mask_true b e := rfl
  have h2 : Bitmap64.create_bit_mask b e false =
      Bitmap64.create_bit_mask_true b e ^^^ (2 ^ 64 - 1) := rfl
  have h3 : Bitmap64.new true = 2 ^ 64 - 1 := rfl
  have h4 : Bitmap64.new false = 0 := rfl
  rw [h1, h2, h3, h4]
  exact ⟨or_compl_u64 hx, and_compl_u64 hx⟩

theorem claim8_witness :
    (3 : Nat) ≤ 7 ∧ (7 : Nat) ≤ Bitmap64.MAP_LENGTH ∧
    Bitmap64.create_bit_mask 3 7 true ||| Bitmap64.create_bit_mask 3 7 false =
      Bitmap64.new true ∧
    Bitmap64.create_bit_mask 3 7 true &&& Bitmap64.create_bit_mask 3 7 false =
      Bitmap64.new false :=
  ⟨by decide, by decide,
   (claim8_mask_round_trip 3 7 (by decide) (by decide)).1,
   (claim8_mask_round_trip 3 7 (by decide) (by decide)).2⟩

/-! ## Value interpretation of the word array -/

theorem goodWords_cons {W w : Nat} {rest : List Nat} :
    goodWords W (w :: rest) ↔ w < 2 ^ W ∧ goodWords W rest := by
  simp [goodWords]

theorem toNat_lt {W : Nat} (ws : List Nat) (h : goodWords W ws) :
    Oversized.toNat W ws < 2 ^ (W * ws.length) := by
  revert h
  induction ws with
  | nil => intro _; simp [Oversized.toNat]
  | cons w rest ih =>
    intro h
    obtain ⟨hw, hrest⟩ := goodWords_cons.mp h
    have ihr := ih hrest
    simp only [Oversized.toNat, List.length_cons]
    have hpow : 2 ^ (W * (rest.length + 1)) = 2 ^ (W * rest.length) * 2 ^ W := by
      rw [Nat.mul_succ, Nat.pow_add]
    rw [hpow]
    calc 2 ^ (W * rest.length) * w + Oversized.toNat W rest
        < 2 ^ (W * rest.length) * w + 2 ^ (W * rest.length) := by omega
      _ = 2 ^ (W * rest.length) * (w + 1) := by ring
      _ ≤ 2 ^ (W * rest.length) * 2 ^ W := Nat.mul_le_mul_left _ (by omega)

/-! ## C9: structural equality and lexicographic-numeric ordering -/

theorem list_eq_iff_getD :
    ∀ (a b : List Nat), a.length = b.length →
      (a = b ↔ ∀ i, i < a.length → a.getD i 0 = b.getD i 0) := by
  intro a
  induction a with
  | nil =>
    intro b h
    cases b with
    | nil => simp
    | cons y ys => simp at h
  | cons x xs ih =>
    intro b h
    cases b with
    | nil => simp at h
    | cons y ys =>
      have h' : xs.length = ys.length := by simpa using h
      constructor
      · intro he i hi
        rw [he]
      · intro hp
        have hx : x = y := hp 0 (by simp)
        have hxs : xs = ys := (ih ys h').mpr (fun i hi => by
          have := hp (i + 1) (by simpa using Nat.succ_lt_succ hi)
          simpa using this)
        rw [hx, hxs]

theorem limb_lt_iff {K a b x y : Nat} (hx : x < K) (hy : y < K) :
    K * a + x < K * b + y ↔ a < b ∨ (a = b ∧ x < y) := by
  constructor
  · intro h
    rcases Nat.lt_trichotomy a b with hab | hab | hab
    · exact Or.inl hab
    · refine Or.inr ⟨hab, ?_⟩
      subst hab
      exact Nat.lt_of_add_lt_add_left h
    · exfalso
      have h1 : K * b + y < K * (b + 1) := by
        rw [Nat.mul_succ]
        exact Nat.add_lt_add_left hy _
      have h2 : K * (b + 1) ≤ K * a := Nat.mul_le_mul_left K hab
      have h3 : K * b + y < K * a + x :=
        Nat.lt_of_lt_of_le h1 (Nat.le_trans h2 (Nat.le_add_right _ _))
      exact Nat.lt_asymm h h3
  · intro h
    rcases h with hab | ⟨hab, hxy⟩
    · calc K * a + x < K * a + K := Nat.add_lt_add_left hx _
        _ = K * (a + 1) := (Nat.mul_succ K a).symm
        _ ≤ K * b := Nat.mul_le_mul_left K hab
        _ ≤ K * b + y := Nat.le_add_right _ _
    · subst hab
      exact Nat.add_lt_add_left hxy _

theorem lexLt_iff_toNat {W : Nat} (_hW : 0 < W) :
    ∀ (a b : List Nat), goodWords W a → goodWords W b → a.length = b.length →
      (Oversized.lexLt a b = true ↔ Oversized.toNat W a < Oversized.toNat W b) := by
  intro a
  induction a with
  | nil =>
    intro b _ _ h
    cases b with
    | nil => simp [Oversized.lexLt, Oversized.toNat]
    | cons y ys => simp at h
  | cons x xs ih =>
    intro b hga hgb h
    cases b with
    | nil => simp at h
    | cons y ys =>
      obtain ⟨hx, hxs⟩ := goodWords_cons.mp hga
      obtain ⟨hy, hys⟩ := goodWords_cons.mp hgb
      have h' : xs.length = ys.length := by simpa using h
      have ihx := ih ys hxs hys h'
      have hxlt := toNat_lt xs hxs
      have hylt := toNat_lt ys hys
      rw [h'] at hxlt
      simp only [Oversized.toNat, h']
      rw [limb_lt_iff hxlt hylt]
      simp [Oversized.lexLt, ihx]

/-- C9: equality of bitmaps of one capacity is element-wise equality of
the word arrays, and the derived lexicographic order over the words from
array index 0 (most significant word first) coincides with numeric
comparison of the multi-word values. -/
theorem claim9_eq_and_order :
    (∀ a b : List Nat, a.length = b.length →
      (a = b ↔ ∀ i, i < a.length → a.getD i 0 = b.getD i 0)) ∧
    (∀ W a b, 0 < W → goodWords W a → goodWords W b → a.length = b.length →
      (Oversized.lexLt a b = true ↔ Oversized.toNat W a < Oversized.toNat W b)) :=
  ⟨list_eq_iff_getD, fun _ a b hW => lexLt_iff_toNat hW a b⟩

theorem claim9_witness :
    ([1, 2] : List Nat).length = ([1, 3] : List Nat).length ∧
    0 < 64 ∧ goodWords 64 [1, 2] ∧ goodWords 64 [1, 3] ∧
    (([1, 2] : List Nat) = [1, 3] ↔
      ∀ i, i < ([1, 2] : List Nat).length →
        ([1, 2] : List Nat).getD i 0 = ([1, 3] : List Nat).getD i 0) ∧
    (Oversized.lexLt [1, 2] [1, 3] = true ↔
      Oversized.toNat 64 [1, 2] < Oversized.toNat 64 [1, 3]) :=
  ⟨rfl, by decide, by decide, by decide,
   claim9_eq_and_order.1 [1, 2] [1, 3] rfl,
   claim9_eq_and_order.2 64 [1, 2] [1, 3] (by decide) (by decide) (by decide) rfl⟩

/-! ## Bit addressing: logical bit index vs word index and offset -/

theorem testBit_toNat {W : Nat} (hW : 0 < W) :
    ∀ (ws : List Nat), goodWords W ws → ∀ i, i < ws.length * W →
      (Oversized.toNat W ws).testBit i =
        (ws.getD (Oversized.get_element_location W ws.length i) 0).testBit (i % W) := by
  intro ws
  induction ws with
  | nil => intro _ i hi; simp at hi
  | cons w rest ih =>
    intro h i hi
    obtain ⟨hw, hrest⟩ := goodWords_cons.mp h
    have hlt := toNat_lt rest hrest
    have hcomm : rest.length * W = W * rest.length := Nat.mul_comm _ _
    simp only [Oversized.toNat]
    rw [Nat.testBit_mul_pow_two_add w hlt i]
    by_cases hcase : i < W * rest.length
    · rw [if_pos hcase]
      have hdiv : i / W < rest.length := div_lt_of_lt_mul_len hW (by omega)
      have hloc : Oversized.get_element_location W (w :: rest).length i =
          Oversized.get_element_location W rest.length i + 1 := by
        unfold Oversized.get_element_location
        simp only [List.length_cons]
        omega
      rw [hloc, List.getD_cons_succ]
      exact ih hrest i (by omega)
    · rw [if_neg hcase]
      have hdiv : i / W = rest.length := by
        apply Nat.div_eq_of_lt_le
        · omega
        · have : (w :: rest).length * W = (rest.length + 1) * W := by simp
          omega
      have hmod : i % W = i - W * rest.length := by
        have hdm := Nat.mod_add_div i W
        rw [hdiv] at hdm
        omega
      have hloc : Oversized.get_element_location W (w :: rest).length i = 0 := by
        unfold Oversized.get_element_location
        simp only [List.length_cons]
        omega
      rw [hloc, List.getD_cons_zero, hmod]

theorem mod_ne_of_div_eq {W i j : Nat} (hne : j ≠ i) (hdiv : i / W = j / W) :
    j % W ≠ i % W := by
  intro heq
  apply hne
  have h1 := Nat.mod_add_div i W
  have h2 := Nat.mod_add_div j W
  rw [hdiv] at h1
  omega

theorem element_location_inj {W L i j : Nat} (hW : 0 < W)
    (hi : i < L * W) (hj : j < L * W)
    (h : Oversized.get_element_location W L j = Oversized.get_element_location W L i) :
    i / W = j / W := by
  have h1 : i / W < L := div_lt_of_lt_mul_len hW hi
  have h2 : j / W < L := div_lt_of_lt_mul_len hW hj
  unfold Oversized.get_element_location at h
  omega

theorem testBit_wordMax_sub_pow {W k : Nat} (hk : k < W) (j : Nat) :
    (wordMax W - 2 ^ k).testBit j = (decide (j < W) && !(2 ^ k).testBit j) := by
  have h2 : 2 ^ k < 2 ^ W := Nat.pow_lt_pow_right (by omega) hk
  have hsub : wordMax W - 2 ^ k = 2 ^ W - (2 ^ k + 1) := by
    unfold wordMax
    omega
  rw [hsub, Nat.testBit_two_pow_sub_succ h2]

/-! ## C2: the word-ordering convention -/

/-- C2: bit index i lives at word index wordCount - 1 - i / W with offset
i % W: get reads exactly bit i of the multi-word value (bit 0 least
significant, in the last array element), set touches no other array
element, and setting bit 70 of a 2-word 64-bit-word bitmap sets bit 6 of
array element 0. -/
theorem claim2_word_ordering :
    (∀ W ws i, 0 < W → goodWords W ws → i < ws.length * W →
      Oversized.get W ws i = .ok ((Oversized.toNat W ws).testBit i)) ∧
    (∀ W ws i v k, k ≠ Oversized.get_element_location W ws.length i →
      (Oversized.set W ws i v).1.getD k 0 = ws.getD k 0) ∧
    ((Oversized.set 64 [0, 0] 70 true).1 = [2 ^ 6, 0] ∧
      Oversized.get_element_location 64 2 70 = 0) := by
  refine ⟨?_, ?_, by decide, by decide⟩
  · intro W ws i hW h hi
    rw [get_in_range hi, testBit_toNat hW ws h i hi]
  · intro W ws i v k hk
    unfold Oversized.set
    by_cases hrange : i ≥ ws.length * W
    · rw [if_pos hrange]
    · rw [if_neg hrange]
      have hset : ∀ (l : List Nat) a x, a ≠ k → (l.set a x).getD k 0 = l.getD k 0 := by
        intro l a x hak
        simp [List.getD_eq_getElem?_getD, List.getElem?_set_ne hak]
      cases v with
      | true => exact hset ws _ _ (Ne.symm hk)
      | false => exact hset ws _ _ (Ne.symm hk)

theorem claim2_witness :
    0 < 64 ∧ goodWords 64 [3, 5] ∧ 70 < ([3, 5] : List Nat).length * 64 ∧
    Oversized.get 64 [3, 5] 70 = .ok ((Oversized.toNat 64 [3, 5]).testBit 70) ∧
    (0 : Nat) ≠ Oversized.get_element_location 64 ([9, 4] : List Nat).length 3 ∧
    (Oversized.set 64 [9, 4] 3 true).1.getD 0 0 = ([9, 4] : List Nat).getD 0 0 :=
  ⟨by decide, by decide, by decide,
   claim2_word_ordering.1 64 [3, 5] 70 (by decide) (by decide) (by decide),
   by decide,
   claim2_word_ordering.2.1 64 [9, 4] 3 true 0 (by decide)⟩

/-! ## C6: a successful set changes exactly one bit -/

theorem set_fst_in_range {W : Nat} {ws : List Nat} {i : Nat} (v : Bool)
    (h : i < ws.length * W) :
    (Oversized.set W ws i v).1 =
      ws.set (Oversized.get_element_location W ws.length i)
        (if v then
          ws.getD (Oversized.get_element_location W ws.length i) 0 ||| 2 ^ (i % W)
         else
          ws.getD (Oversized.get_element_location W ws.length i) 0 &&&
            (wordMax W - 2 ^ (i % W))) := by
  rw [set_in_range v h]

theorem get_set_same {W : Nat} {ws : List Nat} {i : Nat} (v : Bool)
    (hW : 0 < W) (hi : i < ws.length * W) :
    Oversized.get W (Oversized.set W ws i v).1 i = .ok v := by
  have hmodW : i % W < W := Nat.mod_lt _ hW
  have hdivi : i / W < ws.length := div_lt_of_lt_mul_len hW hi
  have hlocL : Oversized.get_element_location W ws.length i < ws.length := by
    unfold Oversized.get_element_location
    generalize hq : i / W = q at hdivi ⊢
    omega
  rw [set_fst_in_range v hi]
  set loc := Oversized.get_element_location W ws.length i with hloc
  set wnew := (if v then ws.getD loc 0 ||| 2 ^ (i % W)
               else ws.getD loc 0 &&& (wordMax W - 2 ^ (i % W))) with hwnew
  have hlen : (ws.set loc wnew).length = ws.length := by simp
  have hi' : i < (ws.set loc wnew).length * W := by rw [hlen]; exact hi
  rw [get_in_range hi', hlen, ← hloc]
  have hgetD : (ws.set loc wnew).getD loc 0 = wnew := by
    simp [List.getD_eq_getElem?_getD, List.getElem?_set_self hlocL]
  rw [hgetD]
  cases v with
  | true =>
    simp only [if_true] at hwnew
    rw [hwnew]
    simp [Nat.testBit_or, Nat.testBit_two_pow_self]
  | false =>
    simp only [Bool.false_eq_true, if_false] at hwnew
    rw [hwnew]
    rw [Nat.testBit_and, testBit_wordMax_sub_pow hmodW]
    simp [Nat.testBit_two_pow_self]

theorem get_set_other {W : Nat} {ws : List Nat} {i j : Nat} (v : Bool)
    (hW : 0 < W) (hi : i < ws.length * W) (hj : j < ws.length * W) (hne : j ≠ i) :
    Oversized.get W (Oversized.set W ws i v).1 j = Oversized.get W ws j := by
  have hmodW : i % W < W := Nat.mod_lt _ hW
  have hmodWj : j % W < W := Nat.mod_lt _ hW
  have hdivi : i / W < ws.length := div_lt_of_lt_mul_len hW hi
  have hlocL : Oversized.get_element_location W ws.length i < ws.length := by
    unfold Oversized.get_element_location
    generalize hq : i / W = q at hdivi ⊢
    omega
  rw [set_fst_in_range v hi]
  set loc := Oversized.get_element_location W ws.length i with hloc
  set wnew := (if v then ws.getD loc 0 ||| 2 ^ (i % W)
               else ws.getD loc 0 &&& (wordMax W - 2 ^ (i % W))) with hwnew
  have hlen : (ws.set loc wnew).length = ws.length := by simp
  have hj' : j < (ws.set loc wnew).length * W := by rw [hlen]; exact hj
  rw [get_in_range hj', get_in_range hj, hlen]
  by_cases hsame : Oversized.get_element_location W ws.length j = loc
  · rw [hsame]
    have hgetD : (ws.set loc wnew).getD loc 0 = wnew := by
      simp [List.getD_eq_getElem?_getD, List.getElem?_set_self hlocL]
    rw [hgetD]
    have hsame' : Oversized.get_element_location W ws.length j =
        Oversized.get_element_location W ws.length i := by rw [hsame, hloc]
    have hdiveq : i / W = j / W := element_location_inj hW hi hj hsame'
    have hmodne : j % W ≠ i % W := mod_ne_of_div_eq hne hdiveq
    cases v with
    | true =>
      simp only [if_true] at hwnew
      rw [hwnew]
      simp [Nat.testBit_or, Nat.testBit_two_pow, Ne.symm hmodne]
    | false =>
      simp only [Bool.false_eq_true, if_false] at hwnew
      rw [hwnew]
      simp [Nat.testBit_and, testBit_wordMax_sub_pow hmodW, Nat.testBit_two_pow,
        Ne.symm hmodne, hmodWj]
  · have hgetD : (ws.set loc wnew).getD (Oversized.get_element_location W ws.length j) 0 =
        ws.getD (Oversized.get_element_location W ws.length j) 0 := by
      simp [List.getD_eq_getElem?_getD, List.getElem?_set_ne (Ne.symm hsame)]
    rw [hgetD]

/-- C6: an in-range set succeeds, makes get of the same index return the
written value, and leaves every other in-range bit exactly as it was. -/
theorem claim6_set_single_bit :
    ∀ W ws i v, 0 < W → i < ws.length * W →
      (Oversized.set W ws i v).2 = .ok () ∧
      Oversized.get W (Oversized.set W ws i v).1 i = .ok v ∧
      ∀ j, j < ws.length * W → j ≠ i →
        Oversized.get W (Oversized.set W ws i v).1 j = Oversized.get W ws j := by
  intro W ws i v hW hi
  refine ⟨?_, get_set_same v hW hi, fun j hj hne => get_set_other v hW hi hj hne⟩
  rw [set_in_range v hi]

theorem claim6_witness :
    0 < 64 ∧ 70 < ([0, 0] : List Nat).length * 64 ∧
    ((Oversized.set 64 [0, 0] 70 true).2 = .ok () ∧
      Oversized.get 64 (Oversized.set 64 [0, 0] 70 true).1 70 = .ok true ∧
      ∀ j, j < ([0, 0] : List Nat).length * 64 → j ≠ 70 →
        Oversized.get 64 (Oversized.set 64 [0, 0] 70 true).1 j =
          Oversized.get 64 [0, 0] j) :=
  ⟨by decide, by decide, claim6_set_single_bit 64 [0, 0] 70 true (by decide) (by decide)⟩

/-! ## C1: ripple-carry scalar addition is big-integer addition -/

theorem addLoop_spec {W : Nat} (hW : 0 < W) :
    ∀ (ws : List Nat) (carry : Nat), goodWords W ws → carry < 2 ^ W →
      (Oversized.toNat W (Oversized.addLoop W ws carry).1 +
          2 ^ (W * ws.length) * (Oversized.addLoop W ws carry).2.1 =
        Oversized.toNat W ws + carry) ∧
      goodWords W (Oversized.addLoop W ws carry).1 ∧
      (Oversized.addLoop W ws carry).1.length = ws.length ∧
      (Oversized.addLoop W ws carry).2.1 < 2 ^ W ∧
      ((Oversized.addLoop W ws carry).2.2 = true →
        (Oversized.addLoop W ws carry).2.1 = 0) := by
  intro ws
  induction ws with
  | nil =>
    intro carry _ hc
    refine ⟨?_, ?_, rfl, hc, ?_⟩
    · simp [Oversized.addLoop, Oversized.toNat]
    · simp [Oversized.addLoop, goodWords]
    · simp [Oversized.addLoop]
  | cons w rest ih =>
    intro carry h hc
    obtain ⟨hw, hrest⟩ := goodWords_cons.mp h
    obtain ⟨ihid, ihgood, ihlen, ihc, ihbr⟩ := ih carry hrest hc
    rcases hrec : Oversized.addLoop W rest carry with ⟨rest', c, broke⟩
    rw [hrec] at ihid ihgood ihlen ihc ihbr
    dsimp only at ihid ihgood ihlen ihc ihbr
    have hA : 2 ^ (W * (rest.length + 1)) = 2 ^ (W * rest.length) * 2 ^ W := by
      rw [Nat.mul_succ, Nat.pow_add]
    have hMeq : wordMax W = 2 ^ W - 1 := rfl
    have hBpos : 0 < 2 ^ W := Nat.two_pow_pos W
    cases broke with
    | true =>
      have hc0 : c = 0 := ihbr rfl
      subst hc0
      have hstep : Oversized.addLoop W (w :: rest) carry = (w :: rest', 0, true) := by
        simp [Oversized.addLoop, hrec]
      rw [hstep]
      refine ⟨?_, goodWords_cons.mpr ⟨hw, ihgood⟩, by simp [ihlen], hBpos, fun _ => rfl⟩
      simp only [Oversized.toNat, List.length_cons, ihlen, Nat.mul_zero, Nat.add_zero]
      simp only [Nat.mul_zero, Nat.add_zero] at ihid
      omega
    | false =>
      by_cases hover : wordMax W - c < w
      · have hstep : Oversized.addLoop W (w :: rest) carry =
            ((w + c) % 2 ^ W :: rest', 1, false) := by
          simp [Oversized.addLoop, hrec, hover]
        rw [hstep]
        have hwc_ge : 2 ^ W ≤ w + c := by
          rw [hMeq] at hover
          omega
        have hmod : (w + c) % 2 ^ W + 2 ^ W = w + c := by
          have hsub : w + c - 2 ^ W < 2 ^ W := by omega
          have hrep : w + c = (w + c - 2 ^ W) + 2 ^ W := by omega
          rw [hrep, Nat.add_mod_right, Nat.mod_eq_of_lt hsub]
        refine ⟨?_, goodWords_cons.mpr ⟨Nat.mod_lt _ hBpos, ihgood⟩, by simp [ihlen],
          Nat.one_lt_two_pow (by omega), by simp⟩
        simp only [Oversized.toNat, List.length_cons, ihlen]
        rw [hA]
        simp only [Nat.mul_one]
        have hAm : 2 ^ (W * rest.length) * ((w + c) % 2 ^ W) +
            2 ^ (W * rest.length) * 2 ^ W =
            2 ^ (W * rest.length) * w + 2 ^ (W * rest.length) * c := by
          rw [← Nat.mul_add, ← Nat.mul_add, hmod]
        omega
      · have hstep : Oversized.addLoop W (w :: rest) carry =
            ((w + c) :: rest', 0, true) := by
          simp [Oversized.addLoop, hrec, hover]
        rw [hstep]
        have hwc_lt : w + c < 2 ^ W := by
          rw [hMeq] at hover
          omega
        refine ⟨?_, goodWords_cons.mpr ⟨hwc_lt, ihgood⟩, by simp [ihlen], hBpos,
          fun _ => rfl⟩
        simp only [Oversized.toNat, List.length_cons, ihlen, Nat.mul_zero, Nat.add_zero]
        have hAm : 2 ^ (W * rest.length) * (w + c) =
            2 ^ (W * rest.length) * w + 2 ^ (W * rest.length) * c := Nat.mul_add _ _ _
        omega

/-- C1: scalar addition on a multi-word bitmap is ripple-carry addition of
the word array read as one big unsigned integer (word at the highest array
index least significant): the result is the sum reduced modulo the full
capacity, the overflow warning fires exactly when the sum exceeds the
capacity, and the 2-word state with words 0 and usize::MAX plus 1 gives
words 1 and 0 with no overflow warning. -/
theorem claim1_ripple_carry_add :
    (∀ W ws s, 0 < W → goodWords W ws → s < 2 ^ W →
      Oversized.toNat W (Oversized.add W ws s).1 =
        (Oversized.toNat W ws + s) % 2 ^ (W * ws.length) ∧
      (Oversized.add W ws s).2 =
        (if 2 ^ (W * ws.length) ≤ Oversized.toNat W ws + s then 1 else 0)) ∧
    Oversized.add 64 [0, wordMax 64] 1 = ([1, 0], 0) := by
  constructor
  · intro W ws s hW h hs
    obtain ⟨hid, hgood, hlen, hcb, _⟩ := addLoop_spec hW ws s h hs
    rcases hrec : Oversized.addLoop W ws s with ⟨ws', c, broke⟩
    rw [hrec] at hid hgood hlen hcb
    dsimp only at hid hgood hlen hcb
    unfold Oversized.add
    rw [hrec]
    dsimp only
    have hlt : Oversized.toNat W ws' < 2 ^ (W * ws.length) := by
      have := toNat_lt ws' hgood
      rwa [hlen] at this
    constructor
    · rw [← hid, Nat.add_mul_mod_self_left]
      exact (Nat.mod_eq_of_lt hlt).symm
    · have hBpos : 0 < 2 ^ (W * ws.length) := Nat.two_pow_pos _
      rcases Nat.eq_zero_or_pos c with h0 | hpos
      · subst h0
        rw [if_neg (by omega), if_neg (by omega)]
      · have hBc : 2 ^ (W * ws.length) ≤ 2 ^ (W * ws.length) * c := by
          calc 2 ^ (W * ws.length) = 2 ^ (W * ws.length) * 1 :=
                (Nat.mul_one _).symm
            _ ≤ 2 ^ (W * ws.length) * c := Nat.mul_le_mul_left _ hpos
        rw [if_pos hpos, if_pos (by omega)]
  · decide

theorem claim1_witness :
    0 < 64 ∧ goodWords 64 [0, wordMax 64] ∧ 1 < 2 ^ 64 ∧
    Oversized.toNat 64 (Oversized.add 64 [0, wordMax 64] 1).1 =
      (Oversized.toNat 64 [0, wordMax 64] + 1) %
        2 ^ (64 * ([0, wordMax 64] : List Nat).length) ∧
    (Oversized.add 64 [0, wordMax 64] 1).2 =
      (if 2 ^ (64 * ([0, wordMax 64] : List Nat).length) ≤
          Oversized.toNat 64 [0, wordMax 64] + 1 then 1 else 0) :=
  ⟨by decide, by decide, by decide,
   (claim1_ripple_carry_add.1 64 [0, wordMax 64] 1 (by decide) (by decide) (by decide)).1,
   (claim1_ripple_carry_add.1 64 [0, wordMax 64] 1 (by decide) (by decide) (by decide)).2⟩

end FixedBitmaps
